import Mathlib

/-!
Verification of the tangent-projection globe viewer (`src/main.rs`,
`src/render.rs`).

The program is a single-threaded winit application.  Camera state
(`scale`, `cam_offset`, `rot`, `drag`, `mouse_pos`) is mutated by input
events; on redraw the per-pixel loop maps every window pixel `(i, j)`
through an inverse gnomonic-style projection into (declination, azimuth),
normalizes the angles, samples a flat RGB texture and writes a packed
32-bit color at buffer index `j * width + i`.

Modelling conventions:
* `f32` values and operations are modelled over `ℝ` (exact real
  arithmetic); the Rust float remainder `a % b` is `a - b * trunc (a / b)`,
  and `f32::atan2 y x` is the argument of the complex number `x + y i`
  (`Complex.arg`), which agrees with `atan2` on every quadrant and at the
  origin (`atan2 0 0 = 0`).
* `u32` quantities (texture offset, width, height, pixel indices) are
  `ℕ`; the `as u32` cast of a nonnegative float is `Int.toNat ∘ Int.floor`.
* The texture byte blob is a length plus a byte function `ℕ → ℕ`.
* The event handler `window_event` is a pure step function
  `AppState → AppEvent → AppState × Effects`, where `Effects` records the
  observable actions of one call (redraw request, the "no graphics
  context" log line, a performed draw, event-loop exit).
-/

noncomputable section

namespace TangentProj

/-- `f32::atan2 y x` (note the Rust receiver is the `y` argument),
modelled as the principal argument of the complex number `x + y i`. -/
def atan2 (y x : ℝ) : ℝ := Complex.arg ⟨x, y⟩

/-- Truncation toward zero, the rounding used by Rust's float remainder. -/
def truncR (x : ℝ) : ℤ := if 0 ≤ x then ⌊x⌋ else ⌈x⌉

/-- Rust's `%` on floats: remainder of truncated division,
`a - b * trunc (a / b)`. -/
def rustRem (a b : ℝ) : ℝ := a - b * truncR (a / b)

/-- The normalization used on both angles in the per-pixel loop:
`v %= per; if v < 0.0 { v += per; }`. -/
def wrap (v per : ℝ) : ℝ :=
if rustRem v per < 0 then rustRem v per + per else rustRem v per

/-- The texture asset: pixel-data origin offset, width and height in
texels, total byte length of the backing blob, and the byte at each
offset of the blob.  (`GLOBE` in `main.rs`; `data_offset`, `data_width`,
`data_height` are the header fields parsed in `main`.) -/
structure Tex where
  offset : ℕ
  w : ℕ
  h : ℕ
  len : ℕ
  bytes : ℕ → ℕ

/-- The camera portion of `App`: zoom `scale`, pan `cam_offset`, rotation
`rot` (azimuth component first, declination component second). -/
structure Cam where
  scale : ℝ
  camOffset : ℝ × ℝ
  rot : ℝ × ℝ

/-- Plane coordinate of pixel index `i` along an axis of extent `ext`
with pan component `off`: `i as f32 - ext as f32 / 2.0 - off`. -/
def planeCoord (ext : ℕ) (off : ℝ) (i : ℕ) : ℝ :=
(i : ℝ) - (ext : ℝ) / 2 - off

/-- Declination before normalization:
`2.0 * scale.atan2((x*x + y*y).sqrt()) + rot[1]`. -/
def declRaw (c : Cam) (x y : ℝ) : ℝ :=
2 * atan2 c.scale (Real.sqrt (x * x + y * y)) + c.rot.2

/-- Azimuth before normalization: `y.atan2(x) + rot[0]`. -/
def azRaw (c : Cam) (x y : ℝ) : ℝ :=
atan2 y x + c.rot.1

/-- Normalized declination, in `[0, π)`. -/
def declOf (c : Cam) (x y : ℝ) : ℝ := wrap (declRaw c x y) Real.pi

/-- Normalized azimuth, in `[0, 2π)`. -/
def azOf (c : Cam) (x y : ℝ) : ℝ := wrap (azRaw c x y) (2 * Real.pi)

/-- Texture row: `(decl / PI * self.data_height as f32) as u32`. -/
def rowInd (t : Tex) (c : Cam) (x y : ℝ) : ℕ :=
(⌊declOf c x y / Real.pi * (t.h : ℝ)⌋).toNat

/-- Texture column: `(azimuth / 2.0 / PI * self.data_width as f32) as u32`. -/
def colInd (t : Tex) (c : Cam) (x y : ℝ) : ℕ :=
(⌊azOf c x y / 2 / Real.pi * (t.w : ℝ)⌋).toNat

/-- Byte offset of texel `(row, col)`:
`self.data_offset + 3 * (decl * self.data_width + azimuth)`. -/
def texIdx (t : Tex) (row col : ℕ) : ℕ := t.offset + 3 * (row * t.w + col)

/-- Packed 32-bit color: `(r as u32) | ((g as u32) << 8) | ((b as u32) << 16)`. -/
def packColor (r g b : ℕ) : ℕ := r ||| (g <<< 8) ||| (b <<< 16)

/-- The packed color of the 3-byte texel at `(row, col)`. -/
def texelColor (t : Tex) (row col : ℕ) : ℕ :=
packColor (t.bytes (texIdx t row col))
  (t.bytes (texIdx t row col + 1))
  (t.bytes (texIdx t row col + 2))

/-- The color the per-pixel loop writes for pixel `(i, j)` of a `W × H`
window: the body of the `for i { for j { ... } }` loop in `main.rs`. -/
def pixelColor (t : Tex) (c : Cam) (W H i j : ℕ) : ℕ :=
texelColor t
  (rowInd t c (planeCoord W c.camOffset.1 i) (planeCoord H c.camOffset.2 j))
  (colInd t c (planeCoord W c.camOffset.1 i) (planeCoord H c.camOffset.2 j))

/-- One inner loop pass (`for j in 0..height`) for a fixed column `i`,
updating the pixel buffer (modelled as a function from index to value)
at `j * width + i` for each `j`. -/
def fillColumn (t : Tex) (c : Cam) (W H i : ℕ) (b : ℕ → ℕ) : ℕ → ℕ :=
(List.range H).foldl
  (fun b j => Function.update b (j * W + i) (pixelColor t c W H i j)) b

/-- The whole per-pixel fill (`for i in 0..width { for j in 0..height }`)
applied to an initial buffer. -/
def fillBuf (t : Tex) (c : Cam) (W H : ℕ) (b : ℕ → ℕ) : ℕ → ℕ :=
(List.range W).foldl (fun b i => fillColumn t c W H i b) b

/-- The physical key codes the handler distinguishes. -/
inductive Key where
  | arrowLeft
  | arrowRight
  | arrowUp
  | arrowDown
  | otherKey
deriving DecidableEq

/-- The window events `window_event` matches on, with the payload fields
the handler reads.  A mouse-wheel event carries the scalar `amount` the
code extracts from either delta variant; a keyboard event carries the
pressed state and the decoded physical key. -/
inductive AppEvent where
  | closeRequested
  | keyboardInput (pressed : Bool) (key : Key)
  | cursorMoved (px py : ℝ)
  | mouseWheel (amount : ℝ)
  | mouseInput (leftButton pressed : Bool)
  | redrawRequested
  | otherEvent

/-- Observable actions of one `window_event` call: whether
`request_redraw` was invoked, whether the "no graphics context" line was
printed, whether a frame was drawn, whether the event loop was told to
exit. -/
structure Effects where
  redraw : Bool
  loggedNoGtx : Bool
  drew : Bool
  exited : Bool
deriving DecidableEq

/-- No observable action. -/
def Effects.none : Effects := ⟨false, false, false, false⟩

/-- The mutable fields of `App` that `window_event` reads or writes,
with the two `Option` resources (`window`, `gtx`) modelled by presence
flags. -/
structure AppState where
  hasWindow : Bool
  hasGtx : Bool
  scale : ℝ
  camOffset : ℝ × ℝ
  drag : Bool
  mousePos : ℝ × ℝ
  rot : ℝ × ℝ

/-- `App::redraw`: `request_redraw` fires only when a window exists. -/
def redrawEff (s : AppState) : Effects := ⟨s.hasWindow, false, false, false⟩

/-- The keyboard arm of `window_event`: on a pressed directional key,
shift the matching rotation component by `amount = 0.1` and call
`redraw`; any other key (or a release) changes nothing. -/
def keyStep (s : AppState) (pressed : Bool) (k : Key) : AppState × Effects :=
if pressed then
  match k with
  | Key.arrowLeft =>
      ({ s with rot := (s.rot.1 - 0.1, s.rot.2) }, redrawEff s)
  | Key.arrowRight =>
      ({ s with rot := (s.rot.1 + 0.1, s.rot.2) }, redrawEff s)
  | Key.arrowUp =>
      ({ s with rot := (s.rot.1, s.rot.2 - 0.1) }, redrawEff s)
  | Key.arrowDown =>
      ({ s with rot := (s.rot.1, s.rot.2 + 0.1) }, redrawEff s)
  | Key.otherKey => (s, Effects.none)
else (s, Effects.none)

/-- The `CursorMoved` arm: compute `(dx, dy) = mouse_pos - position`,
store the new position, and only while dragging subtract the delta from
`cam_offset` and request a redraw. -/
def cursorStep (s : AppState) (px py : ℝ) : AppState × Effects :=
let dx := s.mousePos.1 - px
let dy := s.mousePos.2 - py
let s1 := { s with mousePos := (px, py) }
if s.drag then
  ({ s1 with camOffset := (s.camOffset.1 - dx, s.camOffset.2 - dy) },
    redrawEff s)
else (s1, Effects.none)

/-- The `RedrawRequested` arm: with no graphics context, print and skip;
with no window, silently skip; otherwise draw the frame.  The pixel
writes go to the presentation buffer, so the `AppState` is unchanged in
every branch. -/
def redrawStep (s : AppState) : AppState × Effects :=
if s.hasGtx then
  if s.hasWindow then (s, ⟨false, false, true, false⟩)
  else (s, Effects.none)
else (s, ⟨false, true, false, false⟩)

/-- The full `window_event` handler as a pure step function. -/
def step (s : AppState) (e : AppEvent) : AppState × Effects :=
match e with
| AppEvent.closeRequested => (s, ⟨false, false, false, true⟩)
| AppEvent.keyboardInput pressed k => keyStep s pressed k
| AppEvent.cursorMoved px py => cursorStep s px py
| AppEvent.mouseWheel amount =>
    ({ s with scale := s.scale * (1.01 : ℝ) ^ amount }, redrawEff s)
| AppEvent.mouseInput leftButton pressed =>
    if leftButton then ({ s with drag := pressed }, Effects.none)
    else (s, Effects.none)
| AppEvent.redrawRequested => redrawStep s
| AppEvent.otherEvent => (s, Effects.none)

/-- `App::new` followed by `resumed`: scale 1, everything else zeroed;
the window/context presence flags are left as parameters since `resumed`
sets them outside `window_event`. -/
def initApp (hw hg : Bool) : AppState :=
⟨hw, hg, 1, (0, 0), false, (0, 0), (0, 0)⟩

/-- Camera states reachable from an initial state by any sequence of
window events. -/
inductive Reachable : AppState → Prop where
  | init (hw hg : Bool) : Reachable (initApp hw hg)
  | next {s : AppState} (e : AppEvent) :
      Reachable s → Reachable (step s e).1

/-- The spec's normalization formula (§4.2 step 5):
`((v % per) + per) % per` with the truncated float remainder. -/
def specWrap (v per : ℝ) : ℝ := rustRem (rustRem v per + per) per

/-- Normalized declination as the spec words it (steps 2–5). -/
def specDeclOf (c : Cam) (x y : ℝ) : ℝ :=
specWrap (2 * atan2 c.scale (Real.sqrt (x * x + y * y)) + c.rot.2) Real.pi

/-- Normalized azimuth as the spec words it (steps 3–5). -/
def specAzOf (c : Cam) (x y : ℝ) : ℝ :=
specWrap (atan2 y x + c.rot.1) (2 * Real.pi)

/-- Spec step 6: `row = floor(declination / π * texture.height)`. -/
def specRowInd (t : Tex) (c : Cam) (x y : ℝ) : ℕ :=
(⌊specDeclOf c x y / Real.pi * (t.h : ℝ)⌋).toNat

/-- Spec step 6: `col = floor(azimuth / (2π) * texture.width)`. -/
def specColInd (t : Tex) (c : Cam) (x y : ℝ) : ℕ :=
(⌊specAzOf c x y / (2 * Real.pi) * (t.w : ℝ)⌋).toNat

/-- The color spec steps 1–8 assign to pixel `(i, j)`, with the plane
coordinates of step 1 written out: `x = i - W/2 - pan_offset.x`,
`y = j - H/2 - pan_offset.y`. -/
def specPixelColor (t : Tex) (c : Cam) (W H i j : ℕ) : ℕ :=
texelColor t
  (specRowInd t c ((i : ℝ) - (W : ℝ) / 2 - c.camOffset.1)
    ((j : ℝ) - (H : ℝ) / 2 - c.camOffset.2))
  (specColInd t c ((i : ℝ) - (W : ℝ) / 2 - c.camOffset.1)
    ((j : ℝ) - (H : ℝ) / 2 - c.camOffset.2))

/-- The texture column sampled at the exact projection center, a
function of the azimuth rotation component and the texture width only. -/
def centerCol (rot0 : ℝ) (w : ℕ) : ℕ :=
(⌊wrap rot0 (2 * Real.pi) / 2 / Real.pi * (w : ℝ)⌋).toNat

lemma truncR_of_nonneg {x : ℝ} (h : 0 ≤ x) : truncR x = ⌊x⌋ := if_pos h

lemma truncR_of_neg {x : ℝ} (h : x < 0) : truncR x = ⌈x⌉ :=
if_neg (not_le.mpr h)

lemma rustRem_nonneg_bounds {a b : ℝ} (hb : 0 < b) (ha : 0 ≤ a) :
    0 ≤ rustRem a b ∧ rustRem a b < b := by
  have hbne : b ≠ 0 := ne_of_gt hb
  have hq : 0 ≤ a / b := div_nonneg ha hb.le
  have ha' : b * (a / b) = a := by field_simp
  have h1 : ((⌊a / b⌋ : ℝ)) ≤ a / b := Int.floor_le _
  have h2 : a / b < (⌊a / b⌋ : ℝ) + 1 := Int.lt_floor_add_one _
  unfold rustRem
  rw [truncR_of_nonneg hq]
  constructor
  · nlinarith
  · nlinarith

lemma rustRem_neg_bounds {a b : ℝ} (hb : 0 < b) (ha : a < 0) :
    -b < rustRem a b ∧ rustRem a b ≤ 0 := by
  have hbne : b ≠ 0 := ne_of_gt hb
  have hq : a / b < 0 := div_neg_of_neg_of_pos ha hb
  have ha' : b * (a / b) = a := by field_simp
  have h1 : a / b ≤ ((⌈a / b⌉ : ℝ)) := Int.le_ceil _
  have h2 : ((⌈a / b⌉ : ℝ)) < a / b + 1 := Int.ceil_lt_add_one _
  unfold rustRem
  rw [truncR_of_neg hq]
  constructor
  · nlinarith
  · nlinarith

/-- The in-loop normalization lands in `[0, per)` for a positive period:
the `if v < 0.0` fixup can produce `per` itself only from a negative
float rounding artifact, which exact real arithmetic excludes. -/
lemma wrap_mem {v per : ℝ} (hper : 0 < per) :
    0 ≤ wrap v per ∧ wrap v per < per := by
  unfold wrap
  by_cases hv : 0 ≤ v
  · obtain ⟨h1, h2⟩ := rustRem_nonneg_bounds hper hv
    simp only [not_lt.mpr h1, if_false]
    exact ⟨h1, h2⟩
  · push_neg at hv
    obtain ⟨h1, h2⟩ := rustRem_neg_bounds hper hv
    by_cases hr : rustRem v per < 0
    · simp only [hr, if_true]
      constructor <;> linarith
    · simp only [hr, if_false]
      push_neg at hr
      exact ⟨hr, by linarith⟩

/-- Mapping a normalized angle `d ∈ [0, per)` to an index by
`(d / per * n) as u32` stays below `n` when `n ≥ 1`. -/
lemma floor_scaled_lt {d per : ℝ} {n : ℕ} (hper : 0 < per) (h0 : 0 ≤ d)
    (h1 : d < per) (hn : 1 ≤ n) : (⌊d / per * (n : ℝ)⌋).toNat < n := by
  have hnpos : (0 : ℝ) < (n : ℝ) := by exact_mod_cast hn
  have hlt : d / per * (n : ℝ) < (n : ℝ) := by
    have hq : d / per < 1 := (div_lt_one hper).mpr h1
    calc d / per * (n : ℝ) < 1 * (n : ℝ) :=
          mul_lt_mul_of_pos_right hq hnpos
    _ = (n : ℝ) := one_mul _
  have hge : 0 ≤ d / per * (n : ℝ) :=
    mul_nonneg (div_nonneg h0 hper.le) hnpos.le
  have hfl : ⌊d / per * (n : ℝ)⌋ < (n : ℤ) := by
    refine Int.floor_lt.mpr ?_
    push_cast
    exact hlt
  have hf0 : 0 ≤ ⌊d / per * (n : ℝ)⌋ := Int.floor_nonneg.mpr hge
  omega

/-- The normalized declination is in `[0, π)`. -/
lemma declOf_mem (c : Cam) (x y : ℝ) :
    0 ≤ declOf c x y ∧ declOf c x y < Real.pi :=
  wrap_mem Real.pi_pos

/-- The normalized azimuth is in `[0, 2π)`. -/
lemma azOf_mem (c : Cam) (x y : ℝ) :
    0 ≤ azOf c x y ∧ azOf c x y < 2 * Real.pi :=
  wrap_mem (by positivity)

/-- The truncated remainder always lands strictly between `-per` and
`per` for a positive period. -/
lemma rustRem_abs_lt {v per : ℝ} (hper : 0 < per) :
    -per < rustRem v per ∧ rustRem v per < per := by
  by_cases hv : 0 ≤ v
  · obtain ⟨h1, h2⟩ := rustRem_nonneg_bounds hper hv
    exact ⟨by linarith, h2⟩
  · push_neg at hv
    obtain ⟨h1, h2⟩ := rustRem_neg_bounds hper hv
    exact ⟨h1, by linarith⟩

/-- The spec's `((v % per) + per) % per` normalization and the code's
`v %= per; if v < 0.0 { v += per; }` normalization agree exactly. -/
lemma specWrap_eq_wrap {v per : ℝ} (hper : 0 < per) :
    specWrap v per = wrap v per := by
  obtain ⟨hlo, hhi⟩ := rustRem_abs_lt (v := v) hper
  unfold specWrap wrap
  set r := rustRem v per with hr
  by_cases hneg : r < 0
  · rw [if_pos hneg]
    have hq0 : 0 < (r + per) / per := div_pos (by linarith) hper
    have hq1 : (r + per) / per < 1 :=
      (div_lt_one hper).mpr (by linarith)
    have hfl : ⌊(r + per) / per⌋ = 0 :=
      Int.floor_eq_zero_iff.mpr ⟨hq0.le, hq1⟩
    unfold rustRem
    rw [truncR_of_nonneg hq0.le, hfl]
    push_cast
    ring
  · rw [if_neg hneg]
    push_neg at hneg
    have hq1 : 1 ≤ (r + per) / per :=
      (le_div_iff₀ hper).mpr (by linarith)
    have hq2 : (r + per) / per < 2 :=
      (div_lt_iff₀ hper).mpr (by linarith)
    have hfl : ⌊(r + per) / per⌋ = 1 := by
      rw [Int.floor_eq_iff]
      push_cast
      exact ⟨hq1, by linarith⟩
    unfold rustRem
    rw [truncR_of_nonneg (by linarith), hfl]
    push_cast
    ring

/-- The computed texture row is in range whenever the texture has at
least one row. -/
lemma rowInd_lt (t : Tex) (c : Cam) (x y : ℝ) (ht : 1 ≤ t.h) :
    rowInd t c x y < t.h := by
  obtain ⟨h0, h1⟩ := declOf_mem c x y
  exact floor_scaled_lt Real.pi_pos h0 h1 ht

/-- The computed texture column is in range whenever the texture has at
least one column. -/
lemma colInd_lt (t : Tex) (c : Cam) (x y : ℝ) (ht : 1 ≤ t.w) :
    colInd t c x y < t.w := by
  obtain ⟨h0, h1⟩ := azOf_mem c x y
  have hrw : azOf c x y / 2 / Real.pi = azOf c x y / (2 * Real.pi) :=
    div_div _ _ _
  unfold colInd
  rw [hrw]
  exact floor_scaled_lt (by positivity) h0 h1 ht

/-- `atan2 s 0 = π/2` for positive `s` (the positive imaginary axis). -/
lemma atan2_pos_zero {s : ℝ} (hs : 0 < s) : atan2 s 0 = Real.pi / 2 := by
  unfold atan2
  exact Complex.arg_eq_pi_div_two_iff.mpr ⟨rfl, hs⟩

/-- `f32::atan2(0, 0) = 0`: the argument of the complex number `0`. -/
lemma atan2_zero_zero : atan2 0 0 = 0 := by
  unfold atan2
  have h0 : (⟨0, 0⟩ : ℂ) = 0 := Complex.ext rfl rfl
  rw [h0]
  exact Complex.arg_zero

/-- The spec's declination pipeline computes the code's. -/
lemma specDeclOf_eq (c : Cam) (x y : ℝ) : specDeclOf c x y = declOf c x y := by
  unfold specDeclOf declOf declRaw
  exact specWrap_eq_wrap Real.pi_pos

/-- The spec's azimuth pipeline computes the code's. -/
lemma specAzOf_eq (c : Cam) (x y : ℝ) : specAzOf c x y = azOf c x y := by
  unfold specAzOf azOf azRaw
  exact specWrap_eq_wrap (by positivity)

/-- The spec's row index equals the code's. -/
lemma specRowInd_eq (t : Tex) (c : Cam) (x y : ℝ) :
    specRowInd t c x y = rowInd t c x y := by
  unfold specRowInd rowInd
  rw [specDeclOf_eq]

/-- The spec's column index (`azimuth / (2π) * width`) equals the
code's (`azimuth / 2.0 / PI * width`). -/
lemma specColInd_eq (t : Tex) (c : Cam) (x y : ℝ) :
    specColInd t c x y = colInd t c x y := by
  unfold specColInd colInd
  rw [specAzOf_eq, div_div]

/-- The spec's per-pixel color equals the code's. -/
lemma specPixelColor_eq (t : Tex) (c : Cam) (W H i j : ℕ) :
    specPixelColor t c W H i j = pixelColor t c W H i j := by
  unfold specPixelColor pixelColor planeCoord
  rw [specRowInd_eq, specColInd_eq]

/-- Byte extraction from the packed color: red occupies bits 0–7, green
bits 8–15, blue bits 16–23. -/
lemma packColor_testBit {r g b : ℕ} (hr : r < 256) (hg : g < 256)
    (hb : b < 256) (k : ℕ) (hk : k < 8) :
    (packColor r g b).testBit k = r.testBit k ∧
    (packColor r g b).testBit (8 + k) = g.testBit k ∧
    (packColor r g b).testBit (16 + k) = b.testBit k := by
  have hpow : ∀ m, 8 ≤ m → (256 : ℕ) ≤ 2 ^ m := by
    intro m hm
    calc (256 : ℕ) = 2 ^ 8 := by norm_num
    _ ≤ 2 ^ m := Nat.pow_le_pow_right (by norm_num) hm
  have hr8 : ∀ m, 8 ≤ m → r.testBit m = false := fun m hm =>
    Nat.testBit_eq_false_of_lt (lt_of_lt_of_le hr (hpow m hm))
  have hg8 : ∀ m, 8 ≤ m → g.testBit m = false := fun m hm =>
    Nat.testBit_eq_false_of_lt (lt_of_lt_of_le hg (hpow m hm))
  refine ⟨?_, ?_, ?_⟩
  · simp only [packColor, Nat.testBit_lor, Nat.testBit_shiftLeft]
    have h1 : ¬ 8 ≤ k := by omega
    have h2 : ¬ 16 ≤ k := by omega
    simp [h1, h2]
  · simp only [packColor, Nat.testBit_lor, Nat.testBit_shiftLeft]
    have h1 : (8 : ℕ) ≤ 8 + k := by omega
    have h2 : ¬ (16 : ℕ) ≤ 8 + k := by omega
    simp [h1, h2, hr8 (8 + k) (by omega), Nat.add_sub_cancel_left]
  · simp only [packColor, Nat.testBit_lor, Nat.testBit_shiftLeft]
    have h1 : (8 : ℕ) ≤ 16 + k := by omega
    have h2 : (16 : ℕ) ≤ 16 + k := by omega
    have h3 : 16 + k - 8 = 8 + k := by omega
    simp [h1, h2, h3, hr8 (16 + k) (by omega), hg8 (8 + k) (by omega)]

/-- A fold of pointwise updates leaves untouched indices alone. -/
lemma range_foldl_update_miss (n : ℕ) (key : ℕ → ℕ) (val : ℕ → ℕ)
    (b : ℕ → ℕ) (k : ℕ) (h : ∀ m, m < n → key m ≠ k) :
    (List.range n).foldl (fun b m => Function.update b (key m) (val m)) b k
      = b k := by
  induction n generalizing b with
  | zero => rfl
  | succ n ih =>
      rw [List.range_succ, List.foldl_append]
      simp only [List.foldl_cons, List.foldl_nil]
      rw [Function.update_noteq (Ne.symm (h n (by omega)))]
      exact ih b (fun m hm => h m (by omega))

/-- A fold of pointwise updates stores `val m` at `key m` when `key` is
injective at `m` on the folded range. -/
lemma range_foldl_update_hit (n : ℕ) (key : ℕ → ℕ) (val : ℕ → ℕ)
    (b : ℕ → ℕ) (m : ℕ) (hm : m < n)
    (hinj : ∀ m1, m1 < n → key m1 = key m → m1 = m) :
    (List.range n).foldl (fun b m => Function.update b (key m) (val m)) b
      (key m) = val m := by
  induction n generalizing b with
  | zero => omega
  | succ n ih =>
      rw [List.range_succ, List.foldl_append]
      simp only [List.foldl_cons, List.foldl_nil]
      by_cases hmn : m = n
      · subst hmn
        exact Function.update_same _ _ _
      · have hmlt : m < n := by omega
        have hne : key n ≠ key m := by
          intro heq
          exact hmn ((hinj n (by omega) heq).symm)
        rw [Function.update_noteq (Ne.symm hne)]
        exact ih b hmlt (fun m1 hm1 heq => hinj m1 (by omega) heq)

/-- Buffer indices of distinct pixels are distinct: `j * W + i` with
`i < W` determines `(i, j)`. -/
lemma pixel_index_inj {W i i' j j' : ℕ} (hi : i < W) (hi' : i' < W)
    (h : j * W + i = j' * W + i') : i = i' ∧ j = j' := by
  have hmod : ∀ a b : ℕ, b < W → (a * W + b) % W = b := by
    intro a b hb
    rw [Nat.add_comm, Nat.add_mul_mod_self_right, Nat.mod_eq_of_lt hb]
  have hii : i = i' := by
    have h1 := hmod j i hi
    have h2 := hmod j' i' hi'
    rw [h] at h1
    omega
  subst hii
  have hW : 0 < W := by omega
  have : j * W = j' * W := by omega
  exact ⟨rfl, Nat.eq_of_mul_eq_mul_right hW this⟩

/-- The inner loop pass for column `i` writes `pixelColor i j` at
`j * W + i`. -/
lemma fillColumn_hit (t : Tex) (c : Cam) (W H i : ℕ) (b : ℕ → ℕ) (j : ℕ)
    (hi : i < W) (hj : j < H) :
    fillColumn t c W H i b (j * W + i) = pixelColor t c W H i j := by
  unfold fillColumn
  exact range_foldl_update_hit H (fun j => j * W + i)
    (fun j => pixelColor t c W H i j) b j hj
    (fun j1 _ heq => (pixel_index_inj hi hi heq).2)

/-- The inner loop pass for column `i'` does not touch indices of other
columns. -/
lemma fillColumn_miss (t : Tex) (c : Cam) (W H i' : ℕ) (b : ℕ → ℕ)
    (k : ℕ) (h : ∀ j', j' < H → j' * W + i' ≠ k) :
    fillColumn t c W H i' b k = b k := by
  unfold fillColumn
  exact range_foldl_update_miss H (fun j => j * W + i')
    (fun j => pixelColor t c W H i' j) b k h

/-- Folding column passes over a list of columns leaves an index alone
when no pass in the list writes it. -/
lemma fillCols_miss (t : Tex) (c : Cam) (W H : ℕ) (l : List ℕ)
    (b : ℕ → ℕ) (k : ℕ)
    (h : ∀ i', i' ∈ l → ∀ j', j' < H → j' * W + i' ≠ k) :
    (l.foldl (fun b i' => fillColumn t c W H i' b) b) k = b k := by
  induction l generalizing b with
  | nil => rfl
  | cons a l' ih =>
      simp only [List.foldl_cons]
      rw [ih _ (fun i' hi' => h i' (List.mem_cons_of_mem a hi'))]
      exact fillColumn_miss t c W H a b k (h a (List.mem_cons_self a l'))

/-- Folding the column passes over any list of in-range columns that
contains `i` stores `pixelColor i j` at `j * W + i`. -/
lemma fillCols_hit (t : Tex) (c : Cam) (W H : ℕ) (l : List ℕ)
    (b : ℕ → ℕ) (i j : ℕ) (hi : i < W) (hj : j < H) (hmem : i ∈ l)
    (hbound : ∀ i', i' ∈ l → i' < W) :
    (l.foldl (fun b i' => fillColumn t c W H i' b) b) (j * W + i)
      = pixelColor t c W H i j := by
  induction l generalizing b with
  | nil => cases hmem
  | cons a l' ih =>
      simp only [List.foldl_cons]
      by_cases hmem' : i ∈ l'
      · exact ih _ hmem' (fun i' hi' => hbound i' (List.mem_cons_of_mem a hi'))
      · have hia : i = a := by
          rcases List.mem_cons.mp hmem with h | h
          · exact h
          · exact absurd h hmem'
        subst hia
        rw [fillCols_miss]
        · exact fillColumn_hit t c W H i b j hi hj
        · intro i' hi'mem j' _ heq
          have hi'W : i' < W := hbound i' (List.mem_cons_of_mem i hi'mem)
          have := (pixel_index_inj hi'W hi heq).1
          subst this
          exact hmem' hi'mem

/-- The whole per-pixel fill stores `pixelColor i j` at buffer index
`j * W + i`, for every in-range pixel and regardless of the initial
buffer contents. -/
lemma fillBuf_apply (t : Tex) (c : Cam) (W H : ℕ) (b : ℕ → ℕ) (i j : ℕ)
    (hi : i < W) (hj : j < H) :
    fillBuf t c W H b (j * W + i) = pixelColor t c W H i j := by
  unfold fillBuf
  exact fillCols_hit t c W H (List.range W) b i j hi hj
    (List.mem_range.mpr hi) (fun i' hi' => List.mem_range.mp hi')

/-- C1: for every window with `W ≥ 1`, `H ≥ 1`, every texture with at
least one row and one column, every camera with positive scale and every
in-range pixel `(i, j)`, the row and column computed by the per-pixel
loop satisfy `row < height` and `col < width`, and (given the texture
invariant `offset + 3·height·width ≤ buffer length`) the 3-byte texel
lookup at `offset + 3·(row·width + col)` stays inside the asset
buffer. -/
theorem texel_lookup_in_bounds (t : Tex) (c : Cam) (W H i j : ℕ)
    (hW : 1 ≤ W) (hH : 1 ≤ H) (hth : 1 ≤ t.h) (htw : 1 ≤ t.w)
    (hscale : 0 < c.scale) (hi : i < W) (hj : j < H)
    (hlen : t.offset + 3 * (t.h * t.w) ≤ t.len) :
    rowInd t c (planeCoord W c.camOffset.1 i)
      (planeCoord H c.camOffset.2 j) < t.h ∧
    colInd t c (planeCoord W c.camOffset.1 i)
      (planeCoord H c.camOffset.2 j) < t.w ∧
    texIdx t
      (rowInd t c (planeCoord W c.camOffset.1 i)
        (planeCoord H c.camOffset.2 j))
      (colInd t c (planeCoord W c.camOffset.1 i)
        (planeCoord H c.camOffset.2 j)) + 3 ≤ t.len := by
  set x := planeCoord W c.camOffset.1 i
  set y := planeCoord H c.camOffset.2 j
  have hrow := rowInd_lt t c x y hth
  have hcol := colInd_lt t c x y htw
  refine ⟨hrow, hcol, ?_⟩
  unfold texIdx
  have h1 : rowInd t c x y * t.w + colInd t c x y < t.h * t.w := by
    calc rowInd t c x y * t.w + colInd t c x y
        < rowInd t c x y * t.w + t.w := by omega
    _ = (rowInd t c x y + 1) * t.w := by ring
    _ ≤ t.h * t.w := Nat.mul_le_mul_right _ (by omega)
  omega

/-- Witness for C1 at a 1×1 window, a 1×1 texture of 3 bytes, and the
initial camera. -/
theorem texel_lookup_in_bounds_witness :
    rowInd ⟨0, 1, 1, 3, fun _ => 0⟩ ⟨1, (0, 0), (0, 0)⟩ (planeCoord 1 0 0)
      (planeCoord 1 0 0) < 1 ∧
    colInd ⟨0, 1, 1, 3, fun _ => 0⟩ ⟨1, (0, 0), (0, 0)⟩ (planeCoord 1 0 0)
      (planeCoord 1 0 0) < 1 ∧
    texIdx ⟨0, 1, 1, 3, fun _ => 0⟩
      (rowInd ⟨0, 1, 1, 3, fun _ => 0⟩ ⟨1, (0, 0), (0, 0)⟩
        (planeCoord 1 0 0) (planeCoord 1 0 0))
      (colInd ⟨0, 1, 1, 3, fun _ => 0⟩ ⟨1, (0, 0), (0, 0)⟩
        (planeCoord 1 0 0) (planeCoord 1 0 0)) + 3 ≤ 3 :=
  texel_lookup_in_bounds ⟨0, 1, 1, 3, fun _ => 0⟩ ⟨1, (0, 0), (0, 0)⟩
    1 1 0 0 (by norm_num) (by norm_num) (by norm_num) (by norm_num)
    (by norm_num) (by norm_num) (by norm_num) (by norm_num)

/-- C2: the per-pixel loop computes exactly the spec's pipeline — plane
coordinates, `2·atan2(scale, r)` declination and `atan2(y, x)` azimuth,
rotation offsets, normalization into `[0, π)` and `[0, 2π)`, floor
mapping to texel indices — and stores the texel packed with red in bits
0–7, green in bits 8–15 and blue in bits 16–23 at buffer index
`j * W + i`. -/
theorem engine_matches_spec (t : Tex) (c : Cam) (W H i j : ℕ)
    (b : ℕ → ℕ) (hi : i < W) (hj : j < H) :
    specPixelColor t c W H i j = pixelColor t c W H i j ∧
    fillBuf t c W H b (j * W + i) = pixelColor t c W H i j ∧
    (∀ r g b2 : ℕ, r < 256 → g < 256 → b2 < 256 → ∀ k, k < 8 →
      (packColor r g b2).testBit k = r.testBit k ∧
      (packColor r g b2).testBit (8 + k) = g.testBit k ∧
      (packColor r g b2).testBit (16 + k) = b2.testBit k) :=
  ⟨specPixelColor_eq t c W H i j, fillBuf_apply t c W H b i j hi hj,
    fun _ _ _ hr hg hb2 _ hk => packColor_testBit hr hg hb2 _ hk⟩

/-- Witness for C2 at a 1×1 window and 1×1 texture. -/
theorem engine_matches_spec_witness :
    specPixelColor ⟨0, 1, 1, 3, fun _ => 0⟩ ⟨1, (0, 0), (0, 0)⟩ 1 1 0 0
      = pixelColor ⟨0, 1, 1, 3, fun _ => 0⟩ ⟨1, (0, 0), (0, 0)⟩ 1 1 0 0 :=
  (engine_matches_spec ⟨0, 1, 1, 3, fun _ => 0⟩ ⟨1, (0, 0), (0, 0)⟩ 1 1 0 0
    (fun _ => 0) (by norm_num) (by norm_num)).1

/-- C3: at plane coordinates `x = y = 0`, the step-3 declination is
`2 * atan2(scale, 0) = π` for every positive scale (and hence the raw
declination including the rotation offset is `π + rot.y`). -/
theorem center_declination_pi (c : Cam) (hs : 0 < c.scale) :
    2 * atan2 c.scale (Real.sqrt (0 * 0 + 0 * 0)) = Real.pi ∧
    declRaw c 0 0 = Real.pi + c.rot.2 := by
  have h0 : Real.sqrt ((0 : ℝ) * 0 + 0 * 0) = 0 := by
    rw [show (0 : ℝ) * 0 + 0 * 0 = 0 by norm_num, Real.sqrt_zero]
  constructor
  · rw [h0, atan2_pos_zero hs]
    ring
  · unfold declRaw
    rw [h0, atan2_pos_zero hs]
    ring

/-- Witness for C3 at `scale = 1`. -/
theorem center_declination_pi_witness :
    2 * atan2 (1 : ℝ) (Real.sqrt (0 * 0 + 0 * 0)) = Real.pi :=
  (center_declination_pi ⟨1, (0, 0), (0, 0)⟩ (by norm_num)).1

/-- C9: at the exact projection center the unrotated azimuth is
`atan2(0, 0) = 0`, so the sampled texture column is a function of the
azimuth rotation component (and the texture width) alone. -/
theorem center_azimuth_fallback :
    atan2 0 0 = 0 ∧
    ∀ (t : Tex) (c : Cam), colInd t c 0 0 = centerCol c.rot.1 t.w := by
  refine ⟨atan2_zero_zero, ?_⟩
  intro t c
  unfold colInd azOf azRaw centerCol
  rw [atan2_zero_zero, zero_add]

/-- C10: the per-pixel fill writes the pure function `pixelColor` of the
camera, window and texture inputs at every in-range index `j * W + i`,
independently of the initial buffer contents; two executions with
identical inputs produce identical buffer values. -/
theorem fill_deterministic_and_total (t : Tex) (c : Cam) (W H : ℕ)
    (b b' : ℕ → ℕ) (i j : ℕ) (hi : i < W) (hj : j < H) :
    fillBuf t c W H b (j * W + i) = pixelColor t c W H i j ∧
    fillBuf t c W H b (j * W + i) = fillBuf t c W H b' (j * W + i) := by
  have h1 := fillBuf_apply t c W H b i j hi hj
  have h2 := fillBuf_apply t c W H b' i j hi hj
  exact ⟨h1, h1.trans h2.symm⟩

/-- Witness for C10 at a 1×1 window with two different initial buffers. -/
theorem fill_deterministic_and_total_witness :
    fillBuf ⟨0, 1, 1, 3, fun _ => 0⟩ ⟨1, (0, 0), (0, 0)⟩ 1 1 (fun _ => 0)
      (0 * 1 + 0)
      = pixelColor ⟨0, 1, 1, 3, fun _ => 0⟩ ⟨1, (0, 0), (0, 0)⟩ 1 1 0 0 ∧
    fillBuf ⟨0, 1, 1, 3, fun _ => 0⟩ ⟨1, (0, 0), (0, 0)⟩ 1 1 (fun _ => 0)
      (0 * 1 + 0)
      = fillBuf ⟨0, 1, 1, 3, fun _ => 0⟩ ⟨1, (0, 0), (0, 0)⟩ 1 1
        (fun _ => 7) (0 * 1 + 0) :=
  fill_deterministic_and_total ⟨0, 1, 1, 3, fun _ => 0⟩ ⟨1, (0, 0), (0, 0)⟩
    1 1 (fun _ => 0) (fun _ => 7) 0 0 (by norm_num) (by norm_num)

/-- C4: a scroll event of amount `a` multiplies the scale by exactly
`1.01 ^ a` and requests a redraw; two scroll events of amounts `a` and
`b`, in either order, end at the same scale as one event of `a + b`. -/
theorem scroll_zoom_multiplicative (s : AppState) (a b : ℝ)
    (hw : s.hasWindow = true) :
    (step s (AppEvent.mouseWheel a)).1.scale = s.scale * (1.01 : ℝ) ^ a ∧
    (step s (AppEvent.mouseWheel a)).2.redraw = true ∧
    (step (step s (AppEvent.mouseWheel a)).1 (AppEvent.mouseWheel b)).1.scale
      = (step s (AppEvent.mouseWheel (a + b))).1.scale ∧
    (step (step s (AppEvent.mouseWheel a)).1 (AppEvent.mouseWheel b)).1.scale
      = (step (step s (AppEvent.mouseWheel b)).1
          (AppEvent.mouseWheel a)).1.scale := by
  refine ⟨rfl, hw, ?_, ?_⟩
  · show s.scale * (1.01 : ℝ) ^ a * (1.01 : ℝ) ^ b
      = s.scale * (1.01 : ℝ) ^ (a + b)
    rw [Real.rpow_add (by norm_num : (0 : ℝ) < 1.01)]
    ring
  · show s.scale * (1.01 : ℝ) ^ a * (1.01 : ℝ) ^ b
      = s.scale * (1.01 : ℝ) ^ b * (1.01 : ℝ) ^ a
    ring

/-- Witness for C4 at the initial state with scroll amounts 1 and 2. -/
theorem scroll_zoom_multiplicative_witness :
    (step (initApp true true) (AppEvent.mouseWheel 1)).1.scale
      = (initApp true true).scale * (1.01 : ℝ) ^ (1 : ℝ) ∧
    (step (step (initApp true true) (AppEvent.mouseWheel 1)).1
      (AppEvent.mouseWheel 2)).1.scale
      = (step (initApp true true) (AppEvent.mouseWheel (1 + 2))).1.scale :=
  ⟨(scroll_zoom_multiplicative (initApp true true) 1 2 rfl).1,
   (scroll_zoom_multiplicative (initApp true true) 1 2 rfl).2.2.1⟩

/-- C5: the four arrow keys shift the rotation components by exactly
±0.1 radians, a recognized key press requests a redraw, and right-then-
left (or down-then-up) restores the rotation exactly. -/
theorem arrow_key_rotation (s : AppState) (hw : s.hasWindow = true) :
    (step s (AppEvent.keyboardInput true Key.arrowLeft)).1.rot
      = (s.rot.1 - 0.1, s.rot.2) ∧
    (step s (AppEvent.keyboardInput true Key.arrowRight)).1.rot
      = (s.rot.1 + 0.1, s.rot.2) ∧
    (step s (AppEvent.keyboardInput true Key.arrowUp)).1.rot
      = (s.rot.1, s.rot.2 - 0.1) ∧
    (step s (AppEvent.keyboardInput true Key.arrowDown)).1.rot
      = (s.rot.1, s.rot.2 + 0.1) ∧
    (step s (AppEvent.keyboardInput true Key.arrowLeft)).2.redraw = true ∧
    (step s (AppEvent.keyboardInput true Key.arrowRight)).2.redraw = true ∧
    (step s (AppEvent.keyboardInput true Key.arrowUp)).2.redraw = true ∧
    (step s (AppEvent.keyboardInput true Key.arrowDown)).2.redraw = true ∧
    (step (step s (AppEvent.keyboardInput true Key.arrowRight)).1
      (AppEvent.keyboardInput true Key.arrowLeft)).1.rot = s.rot ∧
    (step (step s (AppEvent.keyboardInput true Key.arrowDown)).1
      (AppEvent.keyboardInput true Key.arrowUp)).1.rot = s.rot := by
  refine ⟨rfl, rfl, rfl, rfl, hw, hw, hw, hw, ?_, ?_⟩
  · show (s.rot.1 + 0.1 - 0.1, s.rot.2) = s.rot
    rw [add_sub_cancel_right]
  · show (s.rot.1, s.rot.2 + 0.1 - 0.1) = s.rot
    rw [add_sub_cancel_right]

/-- Witness for C5 at the initial state. -/
theorem arrow_key_rotation_witness :
    (step (initApp true true) (AppEvent.keyboardInput true Key.arrowLeft)).1.rot
      = ((initApp true true).rot.1 - 0.1, (initApp true true).rot.2) ∧
    (step (step (initApp true true)
        (AppEvent.keyboardInput true Key.arrowRight)).1
      (AppEvent.keyboardInput true Key.arrowLeft)).1.rot
      = (initApp true true).rot :=
  ⟨(arrow_key_rotation (initApp true true) rfl).1,
   (arrow_key_rotation (initApp true true) rfl).2.2.2.2.2.2.2.2.1⟩

/-- C6: a cursor move while dragging shifts the pan offset by exactly
`new_cursor - last_cursor`, stores the new cursor and requests a redraw;
while not dragging only the cursor is stored and nothing else happens;
two pan deltas applied in either order end at the same pan offset. -/
theorem cursor_pan_additive (s : AppState) (px py d1x d1y d2x d2y : ℝ)
    (hw : s.hasWindow = true) :
    (s.drag = true →
      (step s (AppEvent.cursorMoved px py)).1.camOffset
        = (s.camOffset.1 + (px - s.mousePos.1),
           s.camOffset.2 + (py - s.mousePos.2)) ∧
      (step s (AppEvent.cursorMoved px py)).1.mousePos = (px, py) ∧
      (step s (AppEvent.cursorMoved px py)).2.redraw = true) ∧
    (s.drag = false →
      (step s (AppEvent.cursorMoved px py)).1.camOffset = s.camOffset ∧
      (step s (AppEvent.cursorMoved px py)).1.mousePos = (px, py) ∧
      (step s (AppEvent.cursorMoved px py)).2 = Effects.none) ∧
    (s.drag = true →
      (step (step s (AppEvent.cursorMoved (s.mousePos.1 + d1x)
          (s.mousePos.2 + d1y))).1
        (AppEvent.cursorMoved (s.mousePos.1 + d1x + d2x)
          (s.mousePos.2 + d1y + d2y))).1.camOffset
        = (step (step s (AppEvent.cursorMoved (s.mousePos.1 + d2x)
            (s.mousePos.2 + d2y))).1
          (AppEvent.cursorMoved (s.mousePos.1 + d2x + d1x)
            (s.mousePos.2 + d2y + d1y))).1.camOffset ∧
      (step (step s (AppEvent.cursorMoved (s.mousePos.1 + d1x)
          (s.mousePos.2 + d1y))).1
        (AppEvent.cursorMoved (s.mousePos.1 + d1x + d2x)
          (s.mousePos.2 + d1y + d2y))).1.camOffset
        = (s.camOffset.1 + d1x + d2x, s.camOffset.2 + d1y + d2y)) := by
  refine ⟨?_, ?_, ?_⟩
  · intro hd
    refine ⟨?_, ?_, ?_⟩
    · simp only [step, cursorStep, hd, if_true]
      rw [Prod.mk.injEq]
      exact ⟨by ring, by ring⟩
    · simp [step, cursorStep, hd]
    · simp [step, cursorStep, hd, redrawEff, hw]
  · intro hd
    refine ⟨?_, ?_, ?_⟩ <;> simp [step, cursorStep, hd]
  · intro hd
    constructor
    · simp only [step, cursorStep, hd, if_true]
      rw [Prod.mk.injEq]
      exact ⟨by ring, by ring⟩
    · simp only [step, cursorStep, hd, if_true]
      rw [Prod.mk.injEq]
      exact ⟨by ring, by ring⟩

/-- Witness for C6 at a dragging state. -/
theorem cursor_pan_additive_witness :
    (step { initApp true true with drag := true }
      (AppEvent.cursorMoved 3 4)).1.camOffset
      = ((initApp true true).camOffset.1
          + (3 - (initApp true true).mousePos.1),
         (initApp true true).camOffset.2
          + (4 - (initApp true true).mousePos.2)) :=
  ((cursor_pan_additive { initApp true true with drag := true }
    3 4 0 0 0 0 rfl).1 rfl).1

/-- C8: a redraw request with no graphics context logs the condition,
skips the frame (no draw, no crash) and leaves the state untouched. -/
theorem no_gtx_skips_frame (s : AppState) (h : s.hasGtx = false) :
    step s AppEvent.redrawRequested = (s, ⟨false, true, false, false⟩) := by
  simp [step, redrawStep, h]

/-- Witness for C8: a state with a window but no graphics context. -/
theorem no_gtx_skips_frame_witness :
    step (initApp true false) AppEvent.redrawRequested
      = (initApp true false, ⟨false, true, false, false⟩) :=
  no_gtx_skips_frame (initApp true false) rfl

/-- C7 (amended): in every reachable state the scale stays positive;
the stored rotation components, however, are not kept inside
`[0, 2π) × [0, π)` (see the counterexample below) — only the per-pixel
derived angles are normalized into those ranges. -/
theorem reachable_scale_pos {s : AppState} (h : Reachable s) :
    0 < s.scale := by
  induction h with
  | init hw hg => norm_num [initApp]
  | next e _ ih =>
      cases e with
      | closeRequested => exact ih
      | keyboardInput pressed k =>
          cases pressed <;> cases k <;> simpa [step, keyStep] using ih
      | cursorMoved px py =>
          simp only [step, cursorStep]
          split <;> simpa using ih
      | mouseWheel amount =>
          have hp : (0 : ℝ) < (1.01 : ℝ) ^ amount :=
            Real.rpow_pos_of_pos (by norm_num) _
          simpa [step] using mul_pos ih hp
      | mouseInput lb pr =>
          simp only [step]
          split <;> simpa using ih
      | redrawRequested =>
          simp only [step, redrawStep]
          split <;> [skip; simpa using ih]
          split <;> simpa using ih
      | otherEvent => exact ih

/-- Witness for the amended C7 at the initial state. -/
theorem reachable_scale_pos_witness :
    0 < (initApp true true).scale :=
  reachable_scale_pos (Reachable.init true true)

/-- Counterexample to C7 as stated: one left-arrow press from the
initial state is reachable and leaves the stored azimuth rotation at
`-0.1`, outside `[0, 2π)`. -/
theorem rotation_range_invariant_fails :
    Reachable (step (initApp true true)
      (AppEvent.keyboardInput true Key.arrowLeft)).1 ∧
    (step (initApp true true)
      (AppEvent.keyboardInput true Key.arrowLeft)).1.rot.1 = -(0.1 : ℝ) ∧
    ¬ (0 ≤ (step (initApp true true)
          (AppEvent.keyboardInput true Key.arrowLeft)).1.rot.1 ∧
        (step (initApp true true)
          (AppEvent.keyboardInput true Key.arrowLeft)).1.rot.1
          < 2 * Real.pi) := by
  have hval : (step (initApp true true)
      (AppEvent.keyboardInput true Key.arrowLeft)).1.rot.1 = -(0.1 : ℝ) := by
    show (0 : ℝ) - 0.1 = -(0.1 : ℝ)
    norm_num
  refine ⟨Reachable.next _ (Reachable.init true true), hval, ?_⟩
  intro hcon
  rw [hval] at hcon
  have := hcon.1
  norm_num at this

end TangentProj
